import Mathlib

/-!
Verification of the octoWatch keyframe annotation store and its
edit/interpolation engine, shallowly embedded from `src/app.py`.

Bounding boxes, keyframes and the keyframe document are modelled with
rational coordinates; detection lists are Lean lists; the JSON keyframe
mapping is a list of (frame index, keyframe) pairs in storage order.
The route handlers' pure cores (IoU geometry, union bbox, interval
location by IoU scanning, range delete, infill interpolation, IoU-based
delete and modify, and the snapshot/save/restore transaction) are
translated function by function from the source.
-/

namespace OctoWatch

/-- Detection side: left or right tank half. -/
inductive Side where
  | left
  | right
deriving DecidableEq

/-- Side selector as passed to the route handlers: `left`, `right` or `both`. -/
inductive SideSel where
  | left
  | right
  | both
deriving DecidableEq

/-- Whether a side selector covers a given side
(`side in ['both', 'left']` / `side in ['both', 'right']` in the source). -/
def SideSel.selects : SideSel → Side → Bool
  | .left, .left => true
  | .right, .right => true
  | .both, _ => true
  | _, _ => false

/-- The side selector used when a single side `s` is requested. -/
def sideSel : Side → SideSel
  | .left => .left
  | .right => .right

/-- A detection bounding box as stored in the keyframe JSON:
normalized coordinates, confidence, side, and the optional
`interpolated` / `edited` flags (absent keys modelled as `false`). -/
structure BBox where
  x_min : ℚ
  y_min : ℚ
  x_max : ℚ
  y_max : ℚ
  confidence : ℚ
  side : Side
  interpolated : Bool := false
  edited : Bool := false
deriving DecidableEq

/-- A client-supplied bbox from a modification request
(`modifications[side]['bbox']`): just the four coordinates. -/
structure ClientBox where
  x_min : ℚ
  y_min : ℚ
  x_max : ℚ
  y_max : ℚ
deriving DecidableEq

/-- Python `min` on two rationals (kernel-reducible). -/
def rmin (a b : ℚ) : ℚ := if a ≤ b then a else b

/-- Python `max` on two rationals (kernel-reducible). -/
def rmax (a b : ℚ) : ℚ := if b ≤ a then a else b

/-- Python `abs` on a rational (kernel-reducible). -/
def rabs (a : ℚ) : ℚ := if a < 0 then -a else a

theorem rmin_le_left (a b : ℚ) : rmin a b ≤ a := by
  unfold rmin; split
  · exact le_refl a
  · exact le_of_not_le (by assumption)

theorem rmin_le_right (a b : ℚ) : rmin a b ≤ b := by
  unfold rmin; split
  · assumption
  · exact le_refl b

theorem rmin_eq_left {a b : ℚ} (h : a ≤ b) : rmin a b = a := if_pos h

theorem rmin_eq_right {a b : ℚ} (h : b ≤ a) : rmin a b = b := by
  unfold rmin; split
  · exact le_antisymm (by assumption) h
  · rfl

theorem le_rmax_left (a b : ℚ) : a ≤ rmax a b := by
  unfold rmax; split
  · exact le_refl a
  · exact le_of_not_le (by assumption)

theorem le_rmax_right (a b : ℚ) : b ≤ rmax a b := by
  unfold rmax; split
  · assumption
  · exact le_refl b

theorem rmax_eq_left {a b : ℚ} (h : b ≤ a) : rmax a b = a := if_pos h

theorem rmax_eq_right {a b : ℚ} (h : a ≤ b) : rmax a b = b := by
  unfold rmax; split
  · exact le_antisymm h (by assumption)
  · rfl

/-- `calculate_iou` from `app.py`: intersection over union of two boxes. -/
def calculate_iou (box1 box2 : BBox) : ℚ :=
  let x_min := rmax box1.x_min box2.x_min
  let y_min := rmax box1.y_min box2.y_min
  let x_max := rmin box1.x_max box2.x_max
  let y_max := rmin box1.y_max box2.y_max
  if x_max < x_min ∨ y_max < y_min then 0
  else
    let intersection_area := (x_max - x_min) * (y_max - y_min)
    let box1_area := (box1.x_max - box1.x_min) * (box1.y_max - box1.y_min)
    let box2_area := (box2.x_max - box2.x_min) * (box2.y_max - box2.y_min)
    let union_area := box1_area + box2_area - intersection_area
    if union_area = 0 then 0 else intersection_area / union_area

/-- Fold computing the minimum of `f` over a list, seeded with `a`
(models `min(f(d) for d in detections)`). -/
def foldMin (f : BBox → ℚ) (a : ℚ) (l : List BBox) : ℚ :=
  l.foldl (fun acc d => rmin acc (f d)) a

/-- Fold computing the maximum of `f` over a list, seeded with `a`
(models `max(f(d) for d in detections)`). -/
def foldMax (f : BBox → ℚ) (a : ℚ) (l : List BBox) : ℚ :=
  l.foldl (fun acc d => rmax acc (f d)) a

/-- `compute_union_bbox` from `app.py` (infill helper): `None` on an empty
list, the sole element on a singleton, otherwise the coordinate-wise
min/max envelope with arithmetically averaged confidence and the side of
the first detection. -/
def compute_union_bbox : List BBox → Option BBox
  | [] => none
  | [d] => some d
  | d1 :: d2 :: rest =>
    some {
      x_min := foldMin (fun d => d.x_min) d1.x_min (d2 :: rest)
      y_min := foldMin (fun d => d.y_min) d1.y_min (d2 :: rest)
      x_max := foldMax (fun d => d.x_max) d1.x_max (d2 :: rest)
      y_max := foldMax (fun d => d.y_max) d1.y_max (d2 :: rest)
      confidence :=
        ((d1 :: d2 :: rest).map (fun d => d.confidence)).sum /
          ((d1 :: d2 :: rest).length : ℚ)
      side := d1.side }

/-- Linear interpolation `p + (n - p) * w` as written in the infill code. -/
def lerp (p n w : ℚ) : ℚ := p + (n - p) * w

/-- The interpolated detection dict built by the infill branch when both
boundary boxes exist: every coordinate and the confidence interpolated by
`w`, side set to the processed side, `interpolated: true`. -/
def interpolateBox (p n : BBox) (w : ℚ) (s : Side) : BBox :=
  { x_min := lerp p.x_min n.x_min w
    y_min := lerp p.y_min n.y_min w
    x_max := lerp p.x_max n.x_max w
    y_max := lerp p.y_max n.y_max w
    confidence := lerp p.confidence n.confidence w
    side := s
    interpolated := true }

/-- A keyframe record: timestamp, per-side detection lists and the two
boolean summaries (`has_left_octopus` / `has_right_octopus`). -/
structure Frame where
  timestamp : ℚ
  left_detections : List BBox
  right_detections : List BBox
  has_left_octopus : Bool
  has_right_octopus : Bool
deriving DecidableEq

/-- The detection list of a given side (`frame_data[f'{s}_detections']`). -/
def Frame.dets (f : Frame) : Side → List BBox
  | .left => f.left_detections
  | .right => f.right_detections

/-- The boolean summary of a given side (`frame_data[f'has_{s}_octopus']`). -/
def Frame.hasOct (f : Frame) : Side → Bool
  | .left => f.has_left_octopus
  | .right => f.has_right_octopus

/-- Replace the detection list of one side. -/
def Frame.setDets (f : Frame) : Side → List BBox → Frame
  | .left, l => { f with left_detections := l }
  | .right, l => { f with right_detections := l }

/-- Replace the boolean summary of one side. -/
def Frame.setHas (f : Frame) : Side → Bool → Frame
  | .left, b => { f with has_left_octopus := b }
  | .right, b => { f with has_right_octopus := b }

/-- The keyframes mapping: (frame index, keyframe) pairs in storage order. -/
abbrev Keyframes := List (Nat × Frame)

/-- The per-keyframe invariant of the data model: each boolean summary
equals the non-emptiness of its detection list. -/
def frameInv (f : Frame) : Prop :=
  f.has_left_octopus = !f.left_detections.isEmpty ∧
  f.has_right_octopus = !f.right_detections.isEmpty

instance (f : Frame) : Decidable (frameInv f) := by unfold frameInv; infer_instance

/-- The document-level invariant: every stored keyframe satisfies `frameInv`. -/
def framesInv (kfs : Keyframes) : Prop := ∀ e ∈ kfs, frameInv e.2

instance (kfs : Keyframes) : Decidable (framesInv kfs) := by
  unfold framesInv; infer_instance

/-! ### Range delete (`delete_keyframes`, `method == 'delete'`) -/

/-- Clear one side of a keyframe when its detection list is non-empty
(`if frame_data.get('left_detections'): ... = []; has_left_octopus = False`). -/
def deleteSideFrame (s : Side) (f : Frame) : Frame :=
  if f.dets s ≠ [] then (f.setDets s []).setHas s false else f

/-- Per-keyframe action of the range delete for a side selector. -/
def deleteFrame (sel : SideSel) (f : Frame) : Frame :=
  let f1 := if sel.selects .left then deleteSideFrame .left f else f
  if sel.selects .right then deleteSideFrame .right f1 else f1

/-- `delete_keyframes` with `method == 'delete'`: clear the selected sides
of every keyframe whose timestamp lies in `[t0, t1]` (inclusive). -/
def delete_keyframes_range (t0 t1 : ℚ) (sel : SideSel) (kfs : Keyframes) : Keyframes :=
  kfs.map fun e =>
    if t0 ≤ e.2.timestamp ∧ e.2.timestamp ≤ t1 then (e.1, deleteFrame sel e.2) else e

/-! ### Sorting keyframes by frame index (`sorted(..., key=lambda x: int(x[0]))`) -/

/-- Insert an entry into a key-sorted keyframe list. -/
def insertByKey (e : Nat × Frame) : Keyframes → Keyframes
  | [] => [e]
  | x :: xs => if e.1 ≤ x.1 then e :: x :: xs else x :: insertByKey e xs

/-- Sort a keyframe list by frame index ascending. -/
def sortKfs : Keyframes → Keyframes
  | [] => []
  | x :: xs => insertByKey x (sortKfs xs)

/-! ### Infill (`delete_keyframes`, `method == 'infill'`) -/

/-- `find_boundary_keyframes`, prev part: the last keyframe in frame-index
order whose timestamp is strictly before the range start and whose
detection list for the side is non-empty, with its timestamp. -/
def findPrev (t0 : ℚ) (s : Side) (kfs : Keyframes) : Option (Frame × ℚ) :=
  (sortKfs kfs).foldl
    (fun acc e =>
      if e.2.timestamp < t0 ∧ e.2.dets s ≠ [] then some (e.2, e.2.timestamp) else acc)
    none

/-- `find_boundary_keyframes`, next part: the first keyframe in frame-index
order whose timestamp is strictly after the range end and whose detection
list for the side is non-empty, with its timestamp. -/
def findNext (t1 : ℚ) (s : Side) (kfs : Keyframes) : Option (Frame × ℚ) :=
  ((sortKfs kfs).find? fun e =>
      decide (t1 < e.2.timestamp) && !(e.2.dets s).isEmpty).map
    fun e => (e.2, e.2.timestamp)

/-- The in-range action of the infill branch on one keyframe, given the
(union-reduced) boundary boxes with their timestamps: interpolate when both
exist, copy the single boundary verbatim (marked interpolated) when only
one exists, leave the keyframe alone when neither does. -/
def infillWrite (s : Side) (pb nb : Option (BBox × ℚ)) (f : Frame) : Frame :=
  match pb, nb with
  | some (p, pts), some (n, nts) =>
    let weight := (f.timestamp - pts) / (nts - pts)
    (f.setDets s [interpolateBox p n weight s]).setHas s true
  | some (p, _), none =>
    (f.setDets s [{ p with interpolated := true }]).setHas s true
  | none, some (n, _) =>
    (f.setDets s [{ n with interpolated := true }]).setHas s true
  | none, none => f

/-- One side of the infill branch: locate the boundary keyframes, reduce
each to a single box via `compute_union_bbox`, then rewrite every keyframe
whose timestamp lies in `[t0, t1]`. -/
def infillSide (t0 t1 : ℚ) (s : Side) (kfs : Keyframes) : Keyframes :=
  let prev := findPrev t0 s kfs
  let next := findNext t1 s kfs
  if prev.isNone && next.isNone then kfs
  else
    let pb : Option (BBox × ℚ) :=
      match prev with
      | some (pf, pts) => (compute_union_bbox (pf.dets s)).map fun b => (b, pts)
      | none => none
    let nb : Option (BBox × ℚ) :=
      match next with
      | some (nf, nts) => (compute_union_bbox (nf.dets s)).map fun b => (b, nts)
      | none => none
    kfs.map fun e =>
      if t0 ≤ e.2.timestamp ∧ e.2.timestamp ≤ t1 then (e.1, infillWrite s pb nb e.2)
      else e

/-- `delete_keyframes` with `method == 'infill'`: the left side is processed
first, then the right side, each when selected. -/
def infillRange (t0 t1 : ℚ) (sel : SideSel) (kfs : Keyframes) : Keyframes :=
  let k1 := if sel.selects .left then infillSide t0 t1 .left kfs else kfs
  if sel.selects .right then infillSide t0 t1 .right k1 else k1

/-! ### Interval Locator (nearest keyframe + IoU scan, shared by the
IoU-based delete and modify handlers) -/

/-- One step of the nearest-keyframe search: keep the entry with the
strictly smaller absolute time difference (first-encountered wins ties). -/
def nearStep (ts : ℚ) (acc : Option ((Nat × Frame) × ℚ)) (e : Nat × Frame) :
    Option ((Nat × Frame) × ℚ) :=
  let d := rabs (e.2.timestamp - ts)
  match acc with
  | none => some (e, d)
  | some (e0, d0) => if d < d0 then some (e, d) else some (e0, d0)

/-- Find the keyframe whose timestamp is closest to `ts`, iterating the
stored mapping in order (`min_time_diff` loop in the source). -/
def nearestEntry (kfs : Keyframes) (ts : ℚ) : Option (Nat × Frame) :=
  (kfs.foldl (nearStep ts) none).map fun p => p.1

/-- The reference box of one side: the first detection of the nearest
keyframe, present only when the selector covers the side and the list is
non-empty (`reference_boxes` in the source). -/
def refBoxes (sel : SideSel) (nf : Frame) (s : Side) : Option BBox :=
  if sel.selects s then (nf.dets s).head? else none

/-- Whether the scan may include a keyframe for one side: no reference box
for that side, or a non-empty detection list whose first box has IoU at
least 0.8 against the reference (negation of `should_stop`). -/
def sideOk (refs : Side → Option BBox) (f : Frame) (s : Side) : Bool :=
  match refs s with
  | none => true
  | some rb =>
    match f.dets s with
    | [] => false
    | b :: _ => decide ((4 : ℚ) / 5 ≤ calculate_iou rb b)

/-- Whether the scan may include a keyframe: both sides pass `sideOk`. -/
def frameOk (refs : Side → Option BBox) (f : Frame) : Bool :=
  sideOk refs f .left && sideOk refs f .right

/-- `frameOk` applied at an index of the sorted keyframe list (out-of-range
indices never pass, and are never consulted by the scans in range). -/
def okIdx (sorted : Keyframes) (refs : Side → Option BBox) (i : Nat) : Bool :=
  match sorted.get? i with
  | some e => frameOk refs e.2
  | none => false

/-- Backward scan from the nearest index: walk indices `n-1, n-2, ...`,
stopping at the first one that fails `ok`; returns the interval start. -/
def scanBackAux (ok : Nat → Bool) : Nat → Nat
  | 0 => 0
  | n + 1 => if ok n then scanBackAux ok n else n + 1

/-- Forward scan with explicit fuel: starting at `n`, advance to `n+1`
while it passes `ok`, at most `fuel` times; returns the interval end. -/
def scanFwdFuel (ok : Nat → Bool) : Nat → Nat → Nat
  | 0, n => n
  | fuel + 1, n => if ok (n + 1) then scanFwdFuel ok fuel (n + 1) else n

/-- Forward scan from the nearest index over a list of length `len`
(`for i in range(nearest_index + 1, len(sorted_frames))`). -/
def scanFwdAux (ok : Nat → Bool) (len n : Nat) : Nat :=
  scanFwdFuel ok (len - (n + 1)) n

/-- The Interval Locator: nearest keyframe, reference boxes, then the
backward and forward IoU scans over the key-sorted list; `none` models the
handler's 404 responses (no keyframes, or no detection on any requested
side at the nearest keyframe). Returns the inclusive index interval into
`sortKfs kfs`. -/
def locateInterval (kfs : Keyframes) (ts : ℚ) (sel : SideSel) : Option (Nat × Nat) :=
  match nearestEntry kfs ts with
  | none => none
  | some (nkey, nf) =>
    if (refBoxes sel nf .left).isNone && (refBoxes sel nf .right).isNone then none
    else
      let sorted := sortKfs kfs
      let n := sorted.findIdx fun e => e.1 == nkey
      some (scanBackAux (okIdx sorted (refBoxes sel nf)) n,
            scanFwdAux (okIdx sorted (refBoxes sel nf)) sorted.length n)

/-! ### Applying an operation over a located interval -/

/-- The frame indices of the sorted-list positions `start..end`
(`range(interval_start_index, interval_end_index + 1)`). -/
def affectedKeys (sorted : Keyframes) (s e : Nat) : List Nat :=
  ((sorted.drop s).take (e - s + 1)).map fun x => x.1

/-- Apply a per-keyframe action to exactly the keyframes of the located
interval (the source mutates the shared dicts of `sorted_frames[s..e]`). -/
def applyInterval (g : Frame → Frame) (s e : Nat) (kfs : Keyframes) : Keyframes :=
  let keys := affectedKeys (sortKfs kfs) s e
  kfs.map fun x => if x.1 ∈ keys then (x.1, g x.2) else x

/-- `delete_keyframe_iou` as a document transform: locate the interval and
clear the selected sides there; the document is unchanged when the locate
step fails (the handler returns 404 before any mutation). -/
def iouDeleteMutate (ts : ℚ) (sel : SideSel) (kfs : Keyframes) : Keyframes :=
  match locateInterval kfs ts sel with
  | none => kfs
  | some (s, e) => applyInterval (deleteFrame sel) s e kfs

/-! ### IoU-based modify (`update_keyframe`, modification path) -/

/-- The detection written for a user-modified box:
`{**bbox, 'side': s, 'confidence': 1.0}`. -/
def mkUserBox (cb : ClientBox) (s : Side) : BBox :=
  { x_min := cb.x_min, y_min := cb.y_min, x_max := cb.x_max, y_max := cb.y_max
    confidence := 1, side := s }

/-- Per-side modification: replace the detection list with the single
user box, but only when the existing list is non-empty
(`if ... and frame_data.get('left_detections') and 'left' in modification_boxes`);
the boolean summary is not touched by this path. -/
def modifySide (s : Side) (ob : Option ClientBox) (f : Frame) : Frame :=
  match ob with
  | some cb => if f.dets s ≠ [] then f.setDets s [mkUserBox cb s] else f
  | none => f

/-- Per-keyframe modification: left side first, then right. -/
def modifyFrame (boxes : Side → Option ClientBox) (f : Frame) : Frame :=
  modifySide .right (boxes .right) (modifySide .left (boxes .left) f)

/-- The side selector derived from the supplied modification boxes
(`'both' if len(modification_sides) == 2 else modification_sides[0]`). -/
def selFromBoxes (boxes : Side → Option ClientBox) : Option SideSel :=
  match boxes .left, boxes .right with
  | some _, some _ => some .both
  | some _, none => some .left
  | none, some _ => some .right
  | none, none => none

/-- The modification path of `update_keyframe` as a document transform:
locate the interval from the derived selector, then replace detections of
each affected keyframe; unchanged when no box is supplied or the locate
step fails. -/
def modifyMutate (ts : ℚ) (boxes : Side → Option ClientBox) (kfs : Keyframes) : Keyframes :=
  match selFromBoxes boxes with
  | none => kfs
  | some sel =>
    match locateInterval kfs ts sel with
    | none => kfs
    | some (s, e) => applyInterval (modifyFrame boxes) s e kfs

/-! ### The snapshot / save / restore transaction around every mutation -/

instance {E A : Type} [DecidableEq E] [DecidableEq A] : DecidableEq (Except E A) :=
  fun a b =>
  match a, b with
  | .ok x, .ok y =>
    if h : x = y then isTrue (by rw [h])
    else isFalse (by intro hh; cases hh; exact h rfl)
  | .error x, .error y =>
    if h : x = y then isTrue (by rw [h])
    else isFalse (by intro hh; cases hh; exact h rfl)
  | .ok _, .error _ => isFalse (by intro h; cases h)
  | .error _, .ok _ => isFalse (by intro h; cases h)

/-- Outcome of a mutating route: the HTTP-level response (ok or an error
string) together with the resulting on-disk document. -/
structure RouteResult where
  response : Except String Unit
  disk : Keyframes
deriving DecidableEq

/-- The transactional skeleton shared by every mutating handler: copy the
current file to a backup (`shutil.copy2`), mutate the in-memory document,
then attempt the save; on a write failure the backup is moved back over
the document file (`shutil.move(backup_path, keyframes_path)`) and the
failure is returned as an error. `saveOk` is the oracle for whether the
write succeeds. -/
def runEditOp (mutate : Keyframes → Keyframes) (saveOk : Bool) (disk : Keyframes) :
    RouteResult :=
  let backup := disk
  let newData := mutate disk
  if saveOk then { response := .ok (), disk := newData }
  else { response := .error "Failed to save keyframes", disk := backup }

/-- The `delete_keyframes` route (range delete or infill per `method`). -/
def delete_keyframes_route (method : Bool) (t0 t1 : ℚ) (sel : SideSel)
    (saveOk : Bool) (kfs : Keyframes) : RouteResult :=
  if method then runEditOp (delete_keyframes_range t0 t1 sel) saveOk kfs
  else runEditOp (infillRange t0 t1 sel) saveOk kfs

/-- The `delete_keyframe_iou` route: 404 before any snapshot when the
locate step fails, otherwise the transactional delete over the interval. -/
def delete_keyframe_iou_route (ts : ℚ) (sel : SideSel) (saveOk : Bool)
    (kfs : Keyframes) : RouteResult :=
  match locateInterval kfs ts sel with
  | none => { response := .error "No detection found", disk := kfs }
  | some (s, e) => runEditOp (applyInterval (deleteFrame sel) s e) saveOk kfs

/-- The modification path of the `update_keyframe` route: 404 before any
snapshot when the locate step fails, otherwise the transactional
replacement over the interval. No validation of the supplied boxes is
performed anywhere on this path. -/
def update_keyframe_modify_route (ts : ℚ) (boxes : Side → Option ClientBox)
    (saveOk : Bool) (kfs : Keyframes) : RouteResult :=
  match selFromBoxes boxes with
  | none => { response := .ok (), disk := kfs }
  | some sel =>
    match locateInterval kfs ts sel with
    | none => { response := .error "No detection found", disk := kfs }
    | some (s, e) => runEditOp (applyInterval (modifyFrame boxes) s e) saveOk kfs

/-! ### Backup/Restore Manager (restore path) -/

/-- Boolean check that one character list starts with another. -/
def leadingMatch : List Char → List Char → Bool
  | [], _ => true
  | _ :: _, [] => false
  | a :: as, b :: bs => a == b && leadingMatch as bs

/-- Modelled from the spec: the backup file naming convention of §6,
`MVI_<code>_keyframes.backup_<stamp>.json` (no restore code exists under
`src/`; only backup creation does). -/
def backupFileName (code stamp : String) : String :=
  "MVI_" ++ code ++ "_keyframes.backup_" ++ stamp ++ ".json"

/-- Modelled from the spec: the §4.2 validation that a backup filename
belongs to the given code, i.e. starts with that code's backup name stem. -/
def backupBelongsTo (code name : String) : Bool :=
  leadingMatch ("MVI_" ++ code ++ "_keyframes.backup_").data name.data

/-- The file state a restore operates on: the current keyframe document and
the named backup copies. -/
structure BackupStore where
  current : Keyframes
  backups : List (String × Keyframes)
deriving DecidableEq

/-- The error taxonomy of the restore path (§7). -/
inductive RestoreError where
  | invalidInput
  | notFound
deriving DecidableEq

/-- Modelled from the spec: `restore(code, backup_name)` of §4.2, which has
no implementation under `src/`. It validates that the backup filename
belongs to the given code (cross-code restores are rejected as
`InvalidInput`, §7), fails with `NotFound` when the named backup is absent,
and otherwise snapshots the current file to a fresh stamped backup before
overwriting it with the backup's contents, so the restore is reversible.
`stamp` stands for the wall-clock timestamp used in the new backup name. -/
def restoreBackup (code backupName stamp : String) (st : BackupStore) :
    Except RestoreError BackupStore :=
  if backupBelongsTo code backupName then
    match st.backups.find? (fun e => e.1 == backupName) with
    | none => .error .notFound
    | some hit =>
      .ok { current := hit.2
            backups := (backupFileName code stamp, st.current) :: st.backups }
  else .error .invalidInput

/-! ### Frame accessor lemmas -/

theorem dets_setDets (f : Frame) (s t : Side) (l : List BBox) :
    (f.setDets s l).dets t = if s = t then l else f.dets t := by
  cases s <;> cases t <;> simp [Frame.setDets, Frame.dets]

theorem hasOct_setDets (f : Frame) (s t : Side) (l : List BBox) :
    (f.setDets s l).hasOct t = f.hasOct t := by
  cases s <;> cases t <;> simp [Frame.setDets, Frame.hasOct]

theorem dets_setHas (f : Frame) (s t : Side) (b : Bool) :
    (f.setHas s b).dets t = f.dets t := by
  cases s <;> cases t <;> simp [Frame.setHas, Frame.dets]

theorem hasOct_setHas (f : Frame) (s t : Side) (b : Bool) :
    (f.setHas s b).hasOct t = if s = t then b else f.hasOct t := by
  cases s <;> cases t <;> simp [Frame.setHas, Frame.hasOct]

theorem timestamp_setDets (f : Frame) (s : Side) (l : List BBox) :
    (f.setDets s l).timestamp = f.timestamp := by
  cases s <;> simp [Frame.setDets]

theorem timestamp_setHas (f : Frame) (s : Side) (b : Bool) :
    (f.setHas s b).timestamp = f.timestamp := by
  cases s <;> simp [Frame.setHas]

theorem frameInv_iff (f : Frame) :
    frameInv f ↔ ∀ s, f.hasOct s = !(f.dets s).isEmpty := by
  constructor
  · intro h s; cases s
    · exact h.1
    · exact h.2
  · intro h; exact ⟨h .left, h .right⟩

/-! ### Range delete lemmas -/

theorem deleteSideFrame_clears (s : Side) (f : Frame) (hf : frameInv f) :
    (deleteSideFrame s f).dets s = [] ∧ (deleteSideFrame s f).hasOct s = false := by
  unfold deleteSideFrame
  by_cases h : f.dets s ≠ []
  · rw [if_pos h]
    constructor
    · rw [dets_setHas, dets_setDets, if_pos rfl]
    · rw [hasOct_setHas, if_pos rfl]
  · rw [if_neg h]
    push_neg at h
    refine ⟨h, ?_⟩
    rw [(frameInv_iff f).1 hf s, h]
    simp

theorem deleteSideFrame_inv (s : Side) (f : Frame) (hf : frameInv f) :
    frameInv (deleteSideFrame s f) := by
  unfold deleteSideFrame
  by_cases h : f.dets s ≠ []
  · rw [if_pos h]
    rw [frameInv_iff]
    intro t
    rw [hasOct_setHas, dets_setHas, dets_setDets]
    by_cases hst : s = t
    · rw [if_pos hst, if_pos hst]; simp
    · rw [if_neg hst, if_neg hst, hasOct_setDets]
      exact (frameInv_iff f).1 hf t
  · rwa [if_neg h]

theorem deleteFrame_sideSel (S : Side) (f : Frame) :
    deleteFrame (sideSel S) f = deleteSideFrame S f := by
  cases S <;> rfl

theorem deleteFrame_inv (sel : SideSel) (f : Frame) (hf : frameInv f) :
    frameInv (deleteFrame sel f) := by
  unfold deleteFrame
  cases sel <;> simp [SideSel.selects] <;>
    first
      | exact deleteSideFrame_inv _ _ hf
      | exact deleteSideFrame_inv _ _ (deleteSideFrame_inv _ _ hf)

/-- C1 example document: one keyframe at t = 0 with one left detection. -/
def exBoxA : BBox :=
  { x_min := 1/10, y_min := 1/10, x_max := 3/10, y_max := 3/10
    confidence := 9/10, side := .left }

/-- C1 example keyframe entry. -/
def exEntry1 : Nat × Frame :=
  (0, { timestamp := 0, left_detections := [exBoxA], right_detections := []
        has_left_octopus := true, has_right_octopus := false })

/-- C1 example keyframes list. -/
def exKfs1 : Keyframes := [exEntry1]

/-- C1: after a range delete of side `S` over `[t0, t1]` on a document whose
boolean summaries match list non-emptiness, every keyframe whose timestamp
lies in the range has an empty detection list and a false summary for `S`,
and every keyframe outside the range is completely unchanged. -/
theorem delete_range_spec (kfs : Keyframes) (t0 t1 : ℚ) (S : Side)
    (hinv : framesInv kfs) :
    ∀ i e, kfs.get? i = some e →
      ∃ e2, (delete_keyframes_range t0 t1 (sideSel S) kfs).get? i = some e2 ∧
        ((t0 ≤ e.2.timestamp ∧ e.2.timestamp ≤ t1) →
          e2.1 = e.1 ∧ e2.2.dets S = [] ∧ e2.2.hasOct S = false) ∧
        (¬(t0 ≤ e.2.timestamp ∧ e.2.timestamp ≤ t1) → e2 = e) := by
  intro i e he
  have hmem : e ∈ kfs := List.get?_mem he
  have hfr : frameInv e.2 := hinv e hmem
  refine ⟨if t0 ≤ e.2.timestamp ∧ e.2.timestamp ≤ t1
            then (e.1, deleteFrame (sideSel S) e.2) else e, ?_, ?_, ?_⟩
  · unfold delete_keyframes_range
    rw [List.get?_map, he, Option.map_some']
  · intro hin
    rw [if_pos hin, deleteFrame_sideSel]
    exact ⟨rfl, deleteSideFrame_clears S e.2 hfr⟩
  · intro hout
    rw [if_neg hout]

/-- Witness for C1 at the concrete one-keyframe document. -/
theorem delete_range_spec_witness :
    ∃ e2, (delete_keyframes_range 0 1 (sideSel .left) exKfs1).get? 0 = some e2 ∧
      (((0 : ℚ) ≤ exEntry1.2.timestamp ∧ exEntry1.2.timestamp ≤ 1) →
        e2.1 = exEntry1.1 ∧ e2.2.dets .left = [] ∧ e2.2.hasOct .left = false) ∧
      (¬((0 : ℚ) ≤ exEntry1.2.timestamp ∧ exEntry1.2.timestamp ≤ 1) →
        e2 = exEntry1) :=
  delete_range_spec exKfs1 0 1 .left (by decide) 0 exEntry1 rfl

/-! ### Invariant preservation lemmas (C5) -/

theorem writeSingle_inv (f : Frame) (s : Side) (b : BBox) (hf : frameInv f) :
    frameInv ((f.setDets s [b]).setHas s true) := by
  rw [frameInv_iff]
  intro t
  rw [hasOct_setHas, dets_setHas, dets_setDets]
  by_cases hst : s = t
  · rw [if_pos hst, if_pos hst]; simp
  · rw [if_neg hst, if_neg hst, hasOct_setDets]
    exact (frameInv_iff f).1 hf t

theorem infillWrite_inv (s : Side) (pb nb : Option (BBox × ℚ)) (f : Frame)
    (hf : frameInv f) : frameInv (infillWrite s pb nb f) := by
  unfold infillWrite
  match pb, nb with
  | some (p, pts), some (n, nts) => exact writeSingle_inv _ _ _ hf
  | some (p, pts), none => exact writeSingle_inv _ _ _ hf
  | none, some (n, nts) => exact writeSingle_inv _ _ _ hf
  | none, none => exact hf

theorem modifySide_inv (s : Side) (ob : Option ClientBox) (f : Frame)
    (hf : frameInv f) : frameInv (modifySide s ob f) := by
  cases ob with
  | none => exact hf
  | some cb =>
    simp only [modifySide]
    by_cases h : f.dets s ≠ []
    · rw [if_pos h, frameInv_iff]
      intro t
      rw [dets_setDets, hasOct_setDets]
      by_cases hst : s = t
      · rw [if_pos hst]
        subst hst
        rw [(frameInv_iff f).1 hf s]
        simp only [List.isEmpty_eq_true] at *
        simp [List.isEmpty_iff_eq_nil, h]
      · rw [if_neg hst]
        exact (frameInv_iff f).1 hf t
    · rwa [if_neg h]

theorem modifyFrame_inv (boxes : Side → Option ClientBox) (f : Frame)
    (hf : frameInv f) : frameInv (modifyFrame boxes f) :=
  modifySide_inv _ _ _ (modifySide_inv _ _ _ hf)

theorem framesInv_map (kfs : Keyframes) (F : Nat × Frame → Nat × Frame)
    (h : framesInv kfs) (hF : ∀ e ∈ kfs, frameInv e.2 → frameInv (F e).2) :
    framesInv (kfs.map F) := by
  intro x hx
  rw [List.mem_map] at hx
  obtain ⟨e, he, rfl⟩ := hx
  exact hF e he (h e he)

theorem delete_keyframes_range_inv (t0 t1 : ℚ) (sel : SideSel) (kfs : Keyframes)
    (h : framesInv kfs) : framesInv (delete_keyframes_range t0 t1 sel kfs) := by
  refine framesInv_map kfs _ h ?_
  intro e _ hf
  by_cases hin : t0 ≤ e.2.timestamp ∧ e.2.timestamp ≤ t1
  · rw [if_pos hin]; exact deleteFrame_inv sel e.2 hf
  · rw [if_neg hin]; exact hf

theorem infillSide_inv (t0 t1 : ℚ) (s : Side) (kfs : Keyframes)
    (h : framesInv kfs) : framesInv (infillSide t0 t1 s kfs) := by
  unfold infillSide
  dsimp only
  split
  · exact h
  · refine framesInv_map kfs _ h ?_
    intro e _ hf
    by_cases hin : t0 ≤ e.2.timestamp ∧ e.2.timestamp ≤ t1
    · rw [if_pos hin]; exact infillWrite_inv _ _ _ _ hf
    · rw [if_neg hin]; exact hf

theorem infillRange_inv (t0 t1 : ℚ) (sel : SideSel) (kfs : Keyframes)
    (h : framesInv kfs) : framesInv (infillRange t0 t1 sel kfs) := by
  unfold infillRange
  split <;> split <;>
    first
      | exact h
      | exact infillSide_inv _ _ _ _ h
      | exact infillSide_inv _ _ _ _ (infillSide_inv _ _ _ _ h)

theorem applyInterval_inv (g : Frame → Frame) (s e : Nat) (kfs : Keyframes)
    (hg : ∀ f, frameInv f → frameInv (g f)) (h : framesInv kfs) :
    framesInv (applyInterval g s e kfs) := by
  unfold applyInterval
  refine framesInv_map kfs _ h ?_
  intro x _ hf
  by_cases hk : x.1 ∈ affectedKeys (sortKfs kfs) s e
  · rw [if_pos hk]; exact hg x.2 hf
  · rw [if_neg hk]; exact hf

theorem iouDeleteMutate_inv (ts : ℚ) (sel : SideSel) (kfs : Keyframes)
    (h : framesInv kfs) : framesInv (iouDeleteMutate ts sel kfs) := by
  unfold iouDeleteMutate
  split
  · exact h
  · exact applyInterval_inv _ _ _ _ (fun f hf => deleteFrame_inv sel f hf) h

theorem modifyMutate_inv (ts : ℚ) (boxes : Side → Option ClientBox)
    (kfs : Keyframes) (h : framesInv kfs) : framesInv (modifyMutate ts boxes kfs) := by
  unfold modifyMutate
  split
  · exact h
  · split
    · exact h
    · exact applyInterval_inv _ _ _ _ (fun f hf => modifyFrame_inv boxes f hf) h

/-- C5: every mutating operation of the Edit Engine — range delete,
IoU-based delete, IoU-based modify, infill — preserves the invariant that
each side's boolean summary equals the non-emptiness of its detection list:
if the invariant holds for every keyframe before the operation, it holds
for every keyframe after it. -/
theorem edit_engine_preserves_summary_invariant :
    (∀ t0 t1 sel kfs, framesInv kfs →
      framesInv (delete_keyframes_range t0 t1 sel kfs)) ∧
    (∀ ts sel kfs, framesInv kfs → framesInv (iouDeleteMutate ts sel kfs)) ∧
    (∀ ts boxes kfs, framesInv kfs → framesInv (modifyMutate ts boxes kfs)) ∧
    (∀ t0 t1 sel kfs, framesInv kfs → framesInv (infillRange t0 t1 sel kfs)) :=
  ⟨fun t0 t1 sel kfs h => delete_keyframes_range_inv t0 t1 sel kfs h,
   fun ts sel kfs h => iouDeleteMutate_inv ts sel kfs h,
   fun ts boxes kfs h => modifyMutate_inv ts boxes kfs h,
   fun t0 t1 sel kfs h => infillRange_inv t0 t1 sel kfs h⟩

/-- Witness for C5: the invariant after a concrete range delete. -/
theorem edit_engine_preserves_summary_invariant_witness :
    framesInv (delete_keyframes_range 0 1 SideSel.both exKfs1) :=
  edit_engine_preserves_summary_invariant.1 0 1 SideSel.both exKfs1 (by decide)

/-- C2: for every edit operation (range delete, infill, IoU-based delete,
IoU-based modify) on an existing document, if the save step fails after the
pre-mutation snapshot was taken, the on-disk document is restored from that
snapshot — so it is identical to its pre-operation state — and the failure
is surfaced to the caller as an error rather than swallowed. For the
IoU-based routes the snapshot is taken exactly when the locate step
succeeds, hence the hypotheses on `locateInterval`. -/
theorem save_failure_restores :
    (∀ t0 t1 sel kfs, delete_keyframes_route true t0 t1 sel false kfs =
        { response := .error "Failed to save keyframes", disk := kfs }) ∧
    (∀ t0 t1 sel kfs, delete_keyframes_route false t0 t1 sel false kfs =
        { response := .error "Failed to save keyframes", disk := kfs }) ∧
    (∀ ts sel s e kfs, locateInterval kfs ts sel = some (s, e) →
      delete_keyframe_iou_route ts sel false kfs =
        { response := .error "Failed to save keyframes", disk := kfs }) ∧
    (∀ ts boxes sel s e kfs, selFromBoxes boxes = some sel →
      locateInterval kfs ts sel = some (s, e) →
      update_keyframe_modify_route ts boxes false kfs =
        { response := .error "Failed to save keyframes", disk := kfs }) := by
  refine ⟨fun t0 t1 sel kfs => rfl, fun t0 t1 sel kfs => rfl, ?_, ?_⟩
  · intro ts sel s e kfs h
    unfold delete_keyframe_iou_route
    rw [h]
    rfl
  · intro ts boxes sel s e kfs hsel h
    unfold update_keyframe_modify_route
    rw [hsel]
    dsimp only
    rw [h]
    rfl

/-- Witness for C2: a failed save on a concrete IoU-based delete leaves the
document as it was and surfaces the error. -/
theorem save_failure_restores_witness :
    delete_keyframe_iou_route 0 SideSel.left false exKfs1 =
      { response := .error "Failed to save keyframes", disk := exKfs1 } :=
  save_failure_restores.2.2.1 0 SideSel.left 0 0 exKfs1 (by with_unfolding_all decide)

/-! ### Fold lemmas for the union envelope -/

theorem foldMin_le_init (f : BBox → ℚ) (l : List BBox) :
    ∀ a, foldMin f a l ≤ a := by
  induction l with
  | nil => intro a; exact le_refl a
  | cons d t ih =>
    intro a
    calc foldMin f a (d :: t) = foldMin f (rmin a (f d)) t := rfl
      _ ≤ rmin a (f d) := ih _
      _ ≤ a := rmin_le_left _ _

theorem foldMin_le_mem (f : BBox → ℚ) (l : List BBox) :
    ∀ a, ∀ d ∈ l, foldMin f a l ≤ f d := by
  induction l with
  | nil => intro a d hd; cases hd
  | cons x t ih =>
    intro a d hd
    rcases List.mem_cons.1 hd with h | h
    · subst h
      calc foldMin f a (d :: t) = foldMin f (rmin a (f d)) t := rfl
        _ ≤ rmin a (f d) := foldMin_le_init f t _
        _ ≤ f d := rmin_le_right _ _
    · exact ih _ d h

theorem foldMin_attained (f : BBox → ℚ) (l : List BBox) :
    ∀ a, foldMin f a l = a ∨ ∃ d ∈ l, foldMin f a l = f d := by
  induction l with
  | nil => intro a; exact Or.inl rfl
  | cons x t ih =>
    intro a
    have step : foldMin f a (x :: t) = foldMin f (rmin a (f x)) t := rfl
    rcases ih (rmin a (f x)) with h | ⟨d, hd, h⟩
    · rcases le_total a (f x) with hax | hax
      · left; rw [step, h, rmin_eq_left hax]
      · right; exact ⟨x, List.mem_cons_self x t, by rw [step, h, rmin_eq_right hax]⟩
    · right; exact ⟨d, List.mem_cons_of_mem x hd, by rw [step, h]⟩

theorem foldMax_ge_init (f : BBox → ℚ) (l : List BBox) :
    ∀ a, a ≤ foldMax f a l := by
  induction l with
  | nil => intro a; exact le_refl a
  | cons d t ih =>
    intro a
    calc a ≤ rmax a (f d) := le_rmax_left _ _
      _ ≤ foldMax f (rmax a (f d)) t := ih _
      _ = foldMax f a (d :: t) := rfl

theorem foldMax_ge_mem (f : BBox → ℚ) (l : List BBox) :
    ∀ a, ∀ d ∈ l, f d ≤ foldMax f a l := by
  induction l with
  | nil => intro a d hd; cases hd
  | cons x t ih =>
    intro a d hd
    rcases List.mem_cons.1 hd with h | h
    · subst h
      calc f d ≤ rmax a (f d) := le_rmax_right _ _
        _ ≤ foldMax f (rmax a (f d)) t := foldMax_ge_init f t _
        _ = foldMax f a (d :: t) := rfl
    · exact ih _ d h

theorem foldMax_attained (f : BBox → ℚ) (l : List BBox) :
    ∀ a, foldMax f a l = a ∨ ∃ d ∈ l, foldMax f a l = f d := by
  induction l with
  | nil => intro a; exact Or.inl rfl
  | cons x t ih =>
    intro a
    have step : foldMax f a (x :: t) = foldMax f (rmax a (f x)) t := rfl
    rcases ih (rmax a (f x)) with h | ⟨d, hd, h⟩
    · rcases le_total a (f x) with hax | hax
      · right; exact ⟨x, List.mem_cons_self x t, by rw [step, h, rmax_eq_right hax]⟩
      · left; rw [step, h, rmax_eq_left hax]
    · right; exact ⟨d, List.mem_cons_of_mem x hd, by rw [step, h]⟩

/-- C9: `compute_union_bbox` returns `none` on an empty list, the sole
element itself on a singleton, and on a longer list the coordinate-wise
min/max envelope — a lower/upper bound attained among the inputs, hence
geometrically containing every input box — with confidence the arithmetic
mean of the inputs' confidences and side taken from the first element. -/
theorem union_bbox_spec :
    compute_union_bbox [] = none ∧
    (∀ a, compute_union_bbox [a] = some a) ∧
    (∀ d1 d2 rest b, compute_union_bbox (d1 :: d2 :: rest) = some b →
      (∀ d ∈ d1 :: d2 :: rest,
        b.x_min ≤ d.x_min ∧ b.y_min ≤ d.y_min ∧ d.x_max ≤ b.x_max ∧ d.y_max ≤ b.y_max) ∧
      (∃ d ∈ d1 :: d2 :: rest, b.x_min = d.x_min) ∧
      (∃ d ∈ d1 :: d2 :: rest, b.y_min = d.y_min) ∧
      (∃ d ∈ d1 :: d2 :: rest, b.x_max = d.x_max) ∧
      (∃ d ∈ d1 :: d2 :: rest, b.y_max = d.y_max) ∧
      b.confidence = ((d1 :: d2 :: rest).map (fun d => d.confidence)).sum /
        ((d1 :: d2 :: rest).length : ℚ) ∧
      b.side = d1.side) := by
  refine ⟨rfl, fun a => rfl, ?_⟩
  intro d1 d2 rest b hb
  have hb2 := Option.some.inj hb
  subst hb2
  have boundOf : ∀ (f : BBox → ℚ) a, ∀ d ∈ d1 :: d2 :: rest,
      foldMin f a (d2 :: rest) ≤ f d ∨ d = d1 := by
    intro f a d hd
    rcases List.mem_cons.1 hd with h | h
    · exact Or.inr h
    · exact Or.inl (foldMin_le_mem f (d2 :: rest) a d h)
  constructor
  · intro d hd
    rcases List.mem_cons.1 hd with h | h
    · subst h
      exact ⟨foldMin_le_init _ _ _, foldMin_le_init _ _ _,
        foldMax_ge_init _ _ _, foldMax_ge_init _ _ _⟩
    · exact ⟨foldMin_le_mem _ _ _ d h, foldMin_le_mem _ _ _ d h,
        foldMax_ge_mem _ _ _ d h, foldMax_ge_mem _ _ _ d h⟩
  refine ⟨?_, ?_, ?_, ?_, rfl, rfl⟩
  · rcases foldMin_attained (fun d => d.x_min) (d2 :: rest) d1.x_min with h | ⟨d, hd, h⟩
    · exact ⟨d1, List.mem_cons_self _ _, h⟩
    · exact ⟨d, List.mem_cons_of_mem _ hd, h⟩
  · rcases foldMin_attained (fun d => d.y_min) (d2 :: rest) d1.y_min with h | ⟨d, hd, h⟩
    · exact ⟨d1, List.mem_cons_self _ _, h⟩
    · exact ⟨d, List.mem_cons_of_mem _ hd, h⟩
  · rcases foldMax_attained (fun d => d.x_max) (d2 :: rest) d1.x_max with h | ⟨d, hd, h⟩
    · exact ⟨d1, List.mem_cons_self _ _, h⟩
    · exact ⟨d, List.mem_cons_of_mem _ hd, h⟩
  · rcases foldMax_attained (fun d => d.y_max) (d2 :: rest) d1.y_max with h | ⟨d, hd, h⟩
    · exact ⟨d1, List.mem_cons_self _ _, h⟩
    · exact ⟨d, List.mem_cons_of_mem _ hd, h⟩

/-- Second box for the C9 witness. -/
def exBoxB : BBox :=
  { x_min := 1/5, y_min := 0, x_max := 2/5, y_max := 1/5
    confidence := 1, side := .left }

/-- The envelope of `exBoxA` and `exBoxB`, for the C9 witness. -/
def exUnionAB : BBox :=
  { x_min := 1/10, y_min := 0, x_max := 2/5, y_max := 3/10
    confidence := 19/20, side := .left }

/-- Witness for C9: the envelope facts at a concrete two-element list. -/
theorem union_bbox_spec_witness :
    (∀ d ∈ [exBoxA, exBoxB],
      exUnionAB.x_min ≤ d.x_min ∧ exUnionAB.y_min ≤ d.y_min ∧
      d.x_max ≤ exUnionAB.x_max ∧ d.y_max ≤ exUnionAB.y_max) ∧
    (∃ d ∈ [exBoxA, exBoxB], exUnionAB.x_min = d.x_min) ∧
    (∃ d ∈ [exBoxA, exBoxB], exUnionAB.y_min = d.y_min) ∧
    (∃ d ∈ [exBoxA, exBoxB], exUnionAB.x_max = d.x_max) ∧
    (∃ d ∈ [exBoxA, exBoxB], exUnionAB.y_max = d.y_max) ∧
    exUnionAB.confidence =
      (([exBoxA, exBoxB]).map (fun d => d.confidence)).sum /
        (([exBoxA, exBoxB] : List BBox).length : ℚ) ∧
    exUnionAB.side = exBoxA.side :=
  union_bbox_spec.2.2 exBoxA exBoxB [] exUnionAB (by with_unfolding_all decide)

/-- A box is non-degenerate when it has strictly positive width and height. -/
def nondeg (b : BBox) : Prop := b.x_min < b.x_max ∧ b.y_min < b.y_max

instance (b : BBox) : Decidable (nondeg b) := by unfold nondeg; infer_instance

theorem lerp_strict_mono {p1 p2 n1 n2 w : ℚ} (hp : p1 < p2) (hn : n1 < n2)
    (hw0 : 0 ≤ w) (hw1 : w ≤ 1) : lerp p1 n1 w < lerp p2 n2 w := by
  unfold lerp
  by_cases hw : w < 1
  · have h1 : 0 < (1 - w) * (p2 - p1) := mul_pos (by linarith) (by linarith)
    have h2 : 0 ≤ w * (n2 - n1) := mul_nonneg hw0 (by linarith)
    nlinarith [h1, h2]
  · have hw1e : w = 1 := le_antisymm hw1 (not_lt.1 hw)
    subst hw1e
    nlinarith [hn]

/-- C8: neither interpolation nor union produces a degenerate box. When the
two boundary boxes are non-degenerate and the interpolation weight lies
strictly between 0 and 1, the interpolated box is non-degenerate; and the
union envelope of a non-empty list of non-degenerate boxes is
non-degenerate. -/
theorem no_degenerate_boxes :
    (∀ p n w s, nondeg p → nondeg n → 0 < w → w < 1 →
      nondeg (interpolateBox p n w s)) ∧
    (∀ l b, (∀ d ∈ l, nondeg d) → compute_union_bbox l = some b → nondeg b) := by
  constructor
  · intro p n w s hp hn hw0 hw1
    exact ⟨lerp_strict_mono hp.1 hn.1 (le_of_lt hw0) (le_of_lt hw1),
      lerp_strict_mono hp.2 hn.2 (le_of_lt hw0) (le_of_lt hw1)⟩
  · intro l b hl hb
    match l, hb with
    | [d], hb =>
      have : d = b := Option.some.inj hb
      subst this
      exact hl d (List.mem_singleton_self d)
    | d1 :: d2 :: rest, hb =>
      have hb2 := Option.some.inj hb
      subst hb2
      have h1 := hl d1 (List.mem_cons_self _ _)
      constructor
      · calc foldMin (fun d => d.x_min) d1.x_min (d2 :: rest) ≤ d1.x_min :=
              foldMin_le_init _ _ _
          _ < d1.x_max := h1.1
          _ ≤ foldMax (fun d => d.x_max) d1.x_max (d2 :: rest) := foldMax_ge_init _ _ _
      · calc foldMin (fun d => d.y_min) d1.y_min (d2 :: rest) ≤ d1.y_min :=
              foldMin_le_init _ _ _
          _ < d1.y_max := h1.2
          _ ≤ foldMax (fun d => d.y_max) d1.y_max (d2 :: rest) := foldMax_ge_init _ _ _

/-- Witness for C8: non-degeneracy of a concrete interpolation and of a
concrete union envelope. -/
theorem no_degenerate_boxes_witness :
    nondeg (interpolateBox exBoxA exBoxB (1/2) .left) ∧ nondeg exUnionAB :=
  ⟨no_degenerate_boxes.1 exBoxA exBoxB (1/2) .left
      (by with_unfolding_all decide) (by with_unfolding_all decide)
      (by with_unfolding_all decide) (by with_unfolding_all decide),
   no_degenerate_boxes.2 [exBoxA, exBoxB] exUnionAB
      (by with_unfolding_all decide) (by with_unfolding_all decide)⟩

/-- C4: infill semantics. With both boundaries present, each in-range
keyframe receives the single box interpolated with weight
`(frame_timestamp - prev_timestamp) / (next_timestamp - prev_timestamp)`,
marked interpolated, and the summary set true; the interpolation formula
reproduces the prev coordinates at weight 0 and the next coordinates at
weight 1 exactly; with exactly one boundary that boundary's box is copied
verbatim (marked interpolated); with neither boundary the document is left
untouched. -/
theorem infill_interpolation_spec :
    (∀ kfs (t0 t1 : ℚ) s pf pts nf nts p n,
      findPrev t0 s kfs = some (pf, pts) →
      findNext t1 s kfs = some (nf, nts) →
      compute_union_bbox (pf.dets s) = some p →
      compute_union_bbox (nf.dets s) = some n →
      ∀ i k f, kfs.get? i = some (k, f) →
        t0 ≤ f.timestamp → f.timestamp ≤ t1 →
        (infillSide t0 t1 s kfs).get? i =
          some (k, (f.setDets s
            [interpolateBox p n ((f.timestamp - pts) / (nts - pts)) s]).setHas s true)) ∧
    (∀ p n s,
      ((interpolateBox p n 0 s).x_min = p.x_min ∧
       (interpolateBox p n 0 s).y_min = p.y_min ∧
       (interpolateBox p n 0 s).x_max = p.x_max ∧
       (interpolateBox p n 0 s).y_max = p.y_max ∧
       (interpolateBox p n 0 s).confidence = p.confidence) ∧
      ((interpolateBox p n 1 s).x_min = n.x_min ∧
       (interpolateBox p n 1 s).y_min = n.y_min ∧
       (interpolateBox p n 1 s).x_max = n.x_max ∧
       (interpolateBox p n 1 s).y_max = n.y_max ∧
       (interpolateBox p n 1 s).confidence = n.confidence)) ∧
    (∀ kfs (t0 t1 : ℚ) s pf pts p,
      findPrev t0 s kfs = some (pf, pts) →
      findNext t1 s kfs = none →
      compute_union_bbox (pf.dets s) = some p →
      ∀ i k f, kfs.get? i = some (k, f) →
        t0 ≤ f.timestamp → f.timestamp ≤ t1 →
        (infillSide t0 t1 s kfs).get? i =
          some (k, (f.setDets s [{ p with interpolated := true }]).setHas s true)) ∧
    (∀ kfs (t0 t1 : ℚ) s nf nts n,
      findPrev t0 s kfs = none →
      findNext t1 s kfs = some (nf, nts) →
      compute_union_bbox (nf.dets s) = some n →
      ∀ i k f, kfs.get? i = some (k, f) →
        t0 ≤ f.timestamp → f.timestamp ≤ t1 →
        (infillSide t0 t1 s kfs).get? i =
          some (k, (f.setDets s [{ n with interpolated := true }]).setHas s true)) ∧
    (∀ kfs (t0 t1 : ℚ) s,
      findPrev t0 s kfs = none → findNext t1 s kfs = none →
      infillSide t0 t1 s kfs = kfs) := by
  refine ⟨?_, ?_, ?_, ?_, ?_⟩
  · intro kfs t0 t1 s pf pts nf nts p n hp hn hpu hnu i k f he h0 h1
    unfold infillSide
    rw [hp, hn]
    dsimp only
    rw [hpu, hnu]
    rw [if_neg (by simp)]
    rw [List.get?_map, he, Option.map_some']
    rw [if_pos ⟨h0, h1⟩]
    rfl
  · intro p n s
    constructor
    · refine ⟨?_, ?_, ?_, ?_, ?_⟩ <;> (simp only [interpolateBox, lerp]; ring)
    · refine ⟨?_, ?_, ?_, ?_, ?_⟩ <;> (simp only [interpolateBox, lerp]; ring)
  · intro kfs t0 t1 s pf pts p hp hn hpu i k f he h0 h1
    unfold infillSide
    rw [hp, hn]
    dsimp only
    rw [hpu]
    rw [if_neg (by simp)]
    rw [List.get?_map, he, Option.map_some']
    rw [if_pos ⟨h0, h1⟩]
    rfl
  · intro kfs t0 t1 s nf nts n hp hn hnu i k f he h0 h1
    unfold infillSide
    rw [hp, hn]
    dsimp only
    rw [hnu]
    rw [if_neg (by simp)]
    rw [List.get?_map, he, Option.map_some']
    rw [if_pos ⟨h0, h1⟩]
    rfl
  · intro kfs t0 t1 s hp hn
    unfold infillSide
    rw [hp, hn]
    rfl

/-- C4 witness: the prev boundary box. -/
def exBoxP : BBox :=
  { x_min := 0, y_min := 0, x_max := 2, y_max := 2, confidence := 1, side := .left }

/-- C4 witness: the next boundary box. -/
def exBoxN : BBox :=
  { x_min := 4, y_min := 4, x_max := 8, y_max := 8, confidence := 1/2, side := .left }

/-- C4 witness: the in-range middle keyframe. -/
def exFrameMid : Frame :=
  { timestamp := 2, left_detections := [], right_detections := []
    has_left_octopus := false, has_right_octopus := false }

/-- C4 witness: the prev boundary keyframe at t = 0. -/
def exFrameP : Frame :=
  { timestamp := 0, left_detections := [exBoxP], right_detections := []
    has_left_octopus := true, has_right_octopus := false }

/-- C4 witness: the next boundary keyframe at t = 4. -/
def exFrameN : Frame :=
  { timestamp := 4, left_detections := [exBoxN], right_detections := []
    has_left_octopus := true, has_right_octopus := false }

/-- C4 witness document: boundary keyframes at t = 0 and t = 4 around an
empty keyframe at t = 2. -/
def exKfs4 : Keyframes := [(0, exFrameP), (2, exFrameMid), (4, exFrameN)]

/-- Witness for C4: the concrete interpolated keyframe written by a
concrete infill over `[1, 3]`. -/
theorem infill_interpolation_spec_witness :
    (infillSide 1 3 .left exKfs4).get? 1 =
      some (2, (exFrameMid.setDets .left
        [interpolateBox exBoxP exBoxN
          ((exFrameMid.timestamp - 0) / (4 - 0)) .left]).setHas .left true) :=
  infill_interpolation_spec.1 exKfs4 1 3 .left exFrameP 0 exFrameN 4 exBoxP exBoxN
    (by with_unfolding_all decide) (by with_unfolding_all decide) rfl rfl
    1 2 exFrameMid rfl (by with_unfolding_all decide) (by with_unfolding_all decide)

/-! ### Scan lemmas (C3) -/

theorem scanBack_le (ok : Nat → Bool) : ∀ n, scanBackAux ok n ≤ n := by
  intro n
  induction n with
  | zero => exact le_refl 0
  | succ m ih =>
    unfold scanBackAux
    split
    · exact le_trans ih (Nat.le_succ m)
    · exact le_refl (m + 1)

theorem scanBack_ok (ok : Nat → Bool) :
    ∀ n i, scanBackAux ok n ≤ i → i < n → ok i = true := by
  intro n
  induction n with
  | zero => intro i h1 h2; omega
  | succ m ih =>
    intro i h1 h2
    have hstep : scanBackAux ok (m + 1) = if ok m then scanBackAux ok m else m + 1 := rfl
    by_cases hm : ok m
    · have heq : scanBackAux ok (m + 1) = scanBackAux ok m := by rw [hstep, if_pos hm]
      rcases Nat.lt_succ_iff_lt_or_eq.1 h2 with h | h
      · exact ih i (heq ▸ h1) h
      · subst h; exact hm
    · have heq : scanBackAux ok (m + 1) = m + 1 := by rw [hstep, if_neg hm]
      omega

theorem scanBack_boundary (ok : Nat → Bool) :
    ∀ n, scanBackAux ok n = 0 ∨ ok (scanBackAux ok n - 1) = false := by
  intro n
  induction n with
  | zero => left; rfl
  | succ m ih =>
    have hstep : scanBackAux ok (m + 1) = if ok m then scanBackAux ok m else m + 1 := rfl
    by_cases hm : ok m
    · have heq : scanBackAux ok (m + 1) = scanBackAux ok m := by rw [hstep, if_pos hm]
      rw [heq]; exact ih
    · have heq : scanBackAux ok (m + 1) = m + 1 := by rw [hstep, if_neg hm]
      right; rw [heq]
      simpa using hm

theorem scanFwdFuel_ge (ok : Nat → Bool) : ∀ fuel n, n ≤ scanFwdFuel ok fuel n := by
  intro fuel
  induction fuel with
  | zero => intro n; exact le_refl n
  | succ m ih =>
    intro n
    unfold scanFwdFuel
    split
    · exact le_trans (Nat.le_succ n) (ih (n + 1))
    · exact le_refl n

theorem scanFwdFuel_le (ok : Nat → Bool) :
    ∀ fuel n, scanFwdFuel ok fuel n ≤ n + fuel := by
  intro fuel
  induction fuel with
  | zero => intro n; exact Nat.le_add_right n 0
  | succ m ih =>
    intro n
    unfold scanFwdFuel
    split
    · have := ih (n + 1); omega
    · omega

theorem scanFwdFuel_ok (ok : Nat → Bool) :
    ∀ fuel n i, n < i → i ≤ scanFwdFuel ok fuel n → ok i = true := by
  intro fuel
  induction fuel with
  | zero =>
    intro n i h1 h2
    simp only [scanFwdFuel] at h2
    omega
  | succ m ih =>
    intro n i h1 h2
    unfold scanFwdFuel at h2
    by_cases hok : ok (n + 1)
    · rw [if_pos hok] at h2
      rcases Nat.lt_or_ge (n + 1) i with h | h
      · exact ih (n + 1) i h h2
      · have : i = n + 1 := by omega
        subst this; exact hok
    · rw [if_neg hok] at h2
      omega

theorem scanFwdFuel_boundary (ok : Nat → Bool) :
    ∀ fuel n, scanFwdFuel ok fuel n = n + fuel ∨
      ok (scanFwdFuel ok fuel n + 1) = false := by
  intro fuel
  induction fuel with
  | zero => intro n; left; simp [scanFwdFuel]
  | succ m ih =>
    intro n
    have hstep : scanFwdFuel ok (m + 1) n =
        if ok (n + 1) then scanFwdFuel ok m (n + 1) else n := rfl
    by_cases hok : ok (n + 1)
    · have heq : scanFwdFuel ok (m + 1) n = scanFwdFuel ok m (n + 1) := by
        rw [hstep, if_pos hok]
      rw [heq]
      rcases ih (n + 1) with h | h
      · left; rw [h]; omega
      · right; exact h
    · have heq : scanFwdFuel ok (m + 1) n = n := by rw [hstep, if_neg hok]
      right; rw [heq]
      simpa using hok

theorem scanFwd_ge (ok : Nat → Bool) (len n : Nat) : n ≤ scanFwdAux ok len n :=
  scanFwdFuel_ge ok (len - (n + 1)) n

theorem scanFwd_lt_len (ok : Nat → Bool) (len n : Nat) (h : n < len) :
    scanFwdAux ok len n < len := by
  have := scanFwdFuel_le ok (len - (n + 1)) n
  unfold scanFwdAux
  omega

theorem scanFwd_ok (ok : Nat → Bool) (len n i : Nat) (h1 : n < i)
    (h2 : i ≤ scanFwdAux ok len n) : ok i = true :=
  scanFwdFuel_ok ok (len - (n + 1)) n i h1 h2

theorem scanFwd_boundary (ok : Nat → Bool) (len n : Nat) (h : n < len) :
    scanFwdAux ok len n + 1 = len ∨ ok (scanFwdAux ok len n + 1) = false := by
  rcases scanFwdFuel_boundary ok (len - (n + 1)) n with hb | hb
  · left
    unfold scanFwdAux
    omega
  · right; exact hb

/-! ### Nearest-keyframe and sorting lemmas (C3) -/

theorem nearFold_mem (ts : ℚ) :
    ∀ (l : Keyframes) (acc : Option ((Nat × Frame) × ℚ)) p,
      l.foldl (nearStep ts) acc = some p → p.1 ∈ l ∨ acc = some p := by
  intro l
  induction l with
  | nil => intro acc p h; right; exact h
  | cons x xs ih =>
    intro acc p h
    rcases ih (nearStep ts acc x) p h with hmem | hacc
    · left; exact List.mem_cons_of_mem x hmem
    · unfold nearStep at hacc
      cases acc with
      | none =>
        left
        have hp := Option.some.inj hacc
        rw [← hp]
        exact List.mem_cons_self x xs
      | some q =>
        dsimp only at hacc
        split at hacc
        · left
          have hp := Option.some.inj hacc
          rw [← hp]
          exact List.mem_cons_self x xs
        · right
          have hp := Option.some.inj hacc
          rw [← hp]

theorem nearestEntry_mem (kfs : Keyframes) (ts : ℚ) (nkey : Nat) (nf : Frame)
    (h : nearestEntry kfs ts = some (nkey, nf)) : (nkey, nf) ∈ kfs := by
  unfold nearestEntry at h
  cases hf : kfs.foldl (nearStep ts) none with
  | none => rw [hf] at h; cases h
  | some p =>
    rw [hf] at h
    have hp : p.1 = (nkey, nf) := Option.some.inj h
    rcases nearFold_mem ts kfs none p hf with hm | habs
    · rw [← hp]; exact hm
    · cases habs

theorem mem_insertByKey (e x : Nat × Frame) :
    ∀ l, x ∈ insertByKey e l ↔ x = e ∨ x ∈ l := by
  intro l
  induction l with
  | nil => simp [insertByKey]
  | cons a t ih =>
    unfold insertByKey
    split
    · simp [List.mem_cons]
    · simp only [List.mem_cons, ih]
      tauto

theorem mem_sortKfs (x : Nat × Frame) : ∀ l, x ∈ sortKfs l ↔ x ∈ l := by
  intro l
  induction l with
  | nil => simp [sortKfs]
  | cons a t ih =>
    unfold sortKfs
    rw [mem_insertByKey, ih, List.mem_cons]

theorem findIdx_found {α : Type} (p : α → Bool) :
    ∀ (l : List α), (∃ x ∈ l, p x = true) →
      l.findIdx p < l.length ∧
      ∃ y, l.get? (l.findIdx p) = some y ∧ p y = true := by
  intro l
  induction l with
  | nil => rintro ⟨x, hx, hp⟩; cases hx
  | cons a t ih =>
    rintro ⟨x, hx, hpx⟩
    by_cases ha : p a
    · rw [List.findIdx_cons, ha]
      exact ⟨Nat.succ_pos _, a, rfl, ha⟩
    · have hfa : p a = false := by simpa using ha
      rw [List.findIdx_cons, hfa]
      rcases List.mem_cons.1 hx with h | h
      · subst h; exact absurd hpx (by simpa using ha)
      · rcases ih ⟨x, h, hpx⟩ with ⟨hlt, y, hy, hpy⟩
        refine ⟨by simpa using Nat.succ_lt_succ hlt, y, ?_, hpy⟩
        simpa using hy

/-! ### The Interval Locator theorem (C3) -/

/-- C3 scenario: the box at t = 0 and t = 4, with IoU 0 (disjoint) against
the box at t = 1..3. -/
def scnBoxFar : BBox :=
  { x_min := 6/10, y_min := 6/10, x_max := 8/10, y_max := 8/10
    confidence := 9/10, side := .left }

/-- C3 scenario: a keyframe with one left detection. -/
def scnFrame (t : ℚ) (b : BBox) : Frame :=
  { timestamp := t, left_detections := [b], right_detections := []
    has_left_octopus := true, has_right_octopus := false }

/-- C3 scenario document: keyframes at t = 0..4, left boxes identical at
t = 1, 2, 3 and a disjoint box at t = 0 and t = 4. -/
def scenarioKfs : Keyframes :=
  [(0, scnFrame 0 scnBoxFar), (1, scnFrame 1 exBoxA), (2, scnFrame 2 exBoxA),
   (3, scnFrame 3 exBoxA), (4, scnFrame 4 scnBoxFar)]

/-- C3: whenever the Interval Locator returns an interval `[s, e]`, the
interval contains the index `n` of the nearest keyframe in the key-sorted
list; every scanned keyframe strictly between `s` and `n`, and between `n`
and `e`, passes the similarity test (non-empty detection list on each
requested side whose first box has IoU at least 0.8 against the reference
box); and the interval is maximal: the keyframe just outside each end
fails the test or does not exist. In particular, on the scenario document
with keyframes at t = 0..4, identical left boxes at t = 1, 2, 3 and
dissimilar boxes at t = 0 and t = 4, reference timestamp 2 with side left
yields exactly the interval of indices 1..3. -/
theorem interval_locator_spec (kfs : Keyframes) (ts : ℚ) (sel : SideSel)
    (s e : Nat) (h : locateInterval kfs ts sel = some (s, e)) :
    (∃ nkey nf,
      nearestEntry kfs ts = some (nkey, nf) ∧
      (nkey, nf) ∈ sortKfs kfs ∧
      (let sorted := sortKfs kfs
       let n := sorted.findIdx fun x => x.1 == nkey
       let ok := okIdx sorted (refBoxes sel nf)
       n < sorted.length ∧ s ≤ n ∧ n ≤ e ∧ e < sorted.length ∧
       (∀ i, s ≤ i → i < n → ok i = true) ∧
       (∀ i, n < i → i ≤ e → ok i = true) ∧
       (s = 0 ∨ ok (s - 1) = false) ∧
       (e + 1 = sorted.length ∨ ok (e + 1) = false))) ∧
    locateInterval scenarioKfs 2 SideSel.left = some (1, 3) := by
  constructor
  · unfold locateInterval at h
    cases hne : nearestEntry kfs ts with
    | none => rw [hne] at h; cases h
    | some q =>
      obtain ⟨nkey, nf⟩ := q
      rw [hne] at h
      dsimp only at h
      by_cases hc :
          ((refBoxes sel nf .left).isNone && (refBoxes sel nf .right).isNone) = true
      · rw [if_pos hc] at h; cases h
      · rw [if_neg hc] at h
        have hse := Option.some.inj h
        have hs : scanBackAux
            (okIdx (sortKfs kfs) (refBoxes sel nf))
            ((sortKfs kfs).findIdx fun x => x.1 == nkey) = s :=
          congrArg Prod.fst hse
        have hee : scanFwdAux
            (okIdx (sortKfs kfs) (refBoxes sel nf))
            (sortKfs kfs).length
            ((sortKfs kfs).findIdx fun x => x.1 == nkey) = e :=
          congrArg Prod.snd hse
        refine ⟨nkey, nf, rfl, ?_, ?_⟩
        · exact (mem_sortKfs _ kfs).2 (nearestEntry_mem kfs ts nkey nf hne)
        · have hmem : (nkey, nf) ∈ sortKfs kfs :=
            (mem_sortKfs _ kfs).2 (nearestEntry_mem kfs ts nkey nf hne)
          have hex : ∃ x ∈ sortKfs kfs, (x.1 == nkey) = true :=
            ⟨(nkey, nf), hmem, by simp⟩
          have hfi := findIdx_found (fun x => x.1 == nkey) (sortKfs kfs) hex
          dsimp only
          refine ⟨hfi.1, ?_, ?_, ?_, ?_, ?_, ?_, ?_⟩
          · rw [← hs]; exact scanBack_le _ _
          · rw [← hee]; exact scanFwd_ge _ _ _
          · rw [← hee]; exact scanFwd_lt_len _ _ _ hfi.1
          · intro i h1 h2
            exact scanBack_ok _ _ i (hs ▸ h1) h2
          · intro i h1 h2
            exact scanFwd_ok _ _ _ i h1 (hee ▸ h2)
          · rw [← hs]; exact scanBack_boundary _ _
          · rw [← hee]; exact scanFwd_boundary _ _ _ hfi.1
  · with_unfolding_all decide

/-- Witness for C3: the characterization and the scenario result, at the
scenario document itself. -/
theorem interval_locator_spec_witness :
    (∃ nkey nf,
      nearestEntry scenarioKfs 2 = some (nkey, nf) ∧
      (nkey, nf) ∈ sortKfs scenarioKfs ∧
      (let sorted := sortKfs scenarioKfs
       let n := sorted.findIdx fun x => x.1 == nkey
       let ok := okIdx sorted (refBoxes SideSel.left nf)
       n < sorted.length ∧ 1 ≤ n ∧ n ≤ 3 ∧ 3 < sorted.length ∧
       (∀ i, 1 ≤ i → i < n → ok i = true) ∧
       (∀ i, n < i → i ≤ 3 → ok i = true) ∧
       (1 = 0 ∨ ok (1 - 1) = false) ∧
       (3 + 1 = sorted.length ∨ ok (3 + 1) = false))) ∧
    locateInterval scenarioKfs 2 SideSel.left = some (1, 3) :=
  interval_locator_spec scenarioKfs 2 SideSel.left 1 3 (by with_unfolding_all decide)

/-! ### Modify-path lemmas (C6, C7) -/

theorem modifySide_dets_other (s t : Side) (hst : s ≠ t) (ob : Option ClientBox)
    (f : Frame) : (modifySide s ob f).dets t = f.dets t := by
  cases ob with
  | none => rfl
  | some cb =>
    simp only [modifySide]
    by_cases h : f.dets s ≠ []
    · rw [if_pos h, dets_setDets, if_neg hst]
    · rw [if_neg h]

theorem modifySide_dets_self (s : Side) (ob : Option ClientBox) (f : Frame) :
    (modifySide s ob f).dets s =
      match ob with
      | none => f.dets s
      | some cb => if f.dets s ≠ [] then [mkUserBox cb s] else f.dets s := by
  cases ob with
  | none => rfl
  | some cb =>
    simp only [modifySide]
    by_cases h : f.dets s ≠ []
    · rw [if_pos h, if_pos h, dets_setDets, if_pos rfl]
    · rw [if_neg h, if_neg h]

theorem modifySide_hasOct (s t : Side) (ob : Option ClientBox) (f : Frame) :
    (modifySide s ob f).hasOct t = f.hasOct t := by
  cases ob with
  | none => rfl
  | some cb =>
    simp only [modifySide]
    by_cases h : f.dets s ≠ []
    · rw [if_pos h, hasOct_setDets]
    · rw [if_neg h]

theorem modifySide_timestamp (s : Side) (ob : Option ClientBox) (f : Frame) :
    (modifySide s ob f).timestamp = f.timestamp := by
  cases ob with
  | none => rfl
  | some cb =>
    simp only [modifySide]
    by_cases h : f.dets s ≠ []
    · rw [if_pos h, timestamp_setDets]
    · rw [if_neg h]

theorem modifyFrame_dets (boxes : Side → Option ClientBox) (f : Frame) (S : Side) :
    (modifyFrame boxes f).dets S =
      match boxes S with
      | none => f.dets S
      | some cb => if f.dets S ≠ [] then [mkUserBox cb S] else f.dets S := by
  cases S with
  | left =>
    show (modifySide .right (boxes .right) (modifySide .left (boxes .left) f)).dets
        .left = _
    rw [modifySide_dets_other .right .left (by simp), modifySide_dets_self]
  | right =>
    show (modifySide .right (boxes .right) (modifySide .left (boxes .left) f)).dets
        .right = _
    rw [modifySide_dets_self, modifySide_dets_other .left .right (by simp)]

theorem modifyFrame_hasOct (boxes : Side → Option ClientBox) (f : Frame) (S : Side) :
    (modifyFrame boxes f).hasOct S = f.hasOct S := by
  show (modifySide .right (boxes .right) (modifySide .left (boxes .left) f)).hasOct
      S = _
  rw [modifySide_hasOct, modifySide_hasOct]

theorem modifyFrame_timestamp (boxes : Side → Option ClientBox) (f : Frame) :
    (modifyFrame boxes f).timestamp = f.timestamp := by
  show (modifySide .right (boxes .right) (modifySide .left (boxes .left) f)).timestamp
      = _
  rw [modifySide_timestamp, modifySide_timestamp]

/-- C6 counterexample input: three identical keyframes at t = 1, 2, 3 with
a left detection each. -/
def exKfs6 : Keyframes :=
  [(1, scnFrame 1 exBoxA), (2, scnFrame 2 exBoxA), (3, scnFrame 3 exBoxA)]

/-- C6 counterexample input: a degenerate box with `x_min > x_max`. -/
def degBox : ClientBox := { x_min := 1/2, y_min := 1/10, x_max := 3/10, y_max := 2/10 }

/-- C6 counterexample input: a left modification carrying the degenerate box. -/
def boxesLeftDeg : Side → Option ClientBox := fun s =>
  match s with
  | .left => some degBox
  | .right => none

/-- Counterexample to C6: the modification path performs no validation.
With a supplied box whose `x_min` exceeds its `x_max`, the call succeeds
(no `InvalidInput`), and the on-disk document is mutated. -/
theorem edit_validation_counterexample :
    degBox.x_max < degBox.x_min ∧
    (update_keyframe_modify_route 2 boxesLeftDeg true exKfs6).response = .ok () ∧
    (update_keyframe_modify_route 2 boxesLeftDeg true exKfs6).disk ≠ exKfs6 := by
  with_unfolding_all decide

/-- C6 as amended: the edit (modification) path performs no validation of
the supplied box; for any supplied boxes — including a degenerate one with
`x_min >= x_max` — once the interval is located the call succeeds and the
box is applied over the interval, mutating the document. -/
theorem edit_accepts_invalid_box (ts : ℚ) (boxes : Side → Option ClientBox)
    (sel : SideSel) (s e : Nat) (kfs : Keyframes)
    (hsel : selFromBoxes boxes = some sel)
    (hloc : locateInterval kfs ts sel = some (s, e)) :
    update_keyframe_modify_route ts boxes true kfs =
      { response := .ok (), disk := applyInterval (modifyFrame boxes) s e kfs } := by
  unfold update_keyframe_modify_route
  rw [hsel]
  dsimp only
  rw [hloc]
  rfl

/-- Witness for the amended C6 at the degenerate concrete input. -/
theorem edit_accepts_invalid_box_witness :
    update_keyframe_modify_route 2 boxesLeftDeg true exKfs6 =
      { response := .ok ()
        disk := applyInterval (modifyFrame boxesLeftDeg) 0 2 exKfs6 } :=
  edit_accepts_invalid_box 2 boxesLeftDeg .left 0 2 exKfs6 rfl
    (by with_unfolding_all decide)

/-- C7 counterexample input: a replacement box for the left side. -/
def cbL : ClientBox := { x_min := 2/10, y_min := 2/10, x_max := 4/10, y_max := 4/10 }

/-- C7 counterexample input: a replacement box for the right side. -/
def cbR : ClientBox := { x_min := 5/10, y_min := 5/10, x_max := 7/10, y_max := 7/10 }

/-- C7 counterexample input: modification boxes for both sides. -/
def boxesBoth : Side → Option ClientBox := fun s =>
  match s with
  | .left => some cbL
  | .right => some cbR

/-- Counterexample to C7: on a concrete both-sides modification the written
left box does NOT carry an `edited: true` flag (the path never writes one),
and an in-range keyframe whose right detection list is empty is NOT given
the supplied right box — its list stays empty — contradicting "every
keyframe in the target range ends with that side's detection list replaced
by exactly one box ... and the flag edited: true". -/
theorem modify_edited_flag_counterexample :
    boxesBoth .right = some cbR ∧
    (modifyMutate 2 boxesBoth exKfs6).get? 1 =
      some (2, (scnFrame 2 exBoxA).setDets .left [mkUserBox cbL .left]) ∧
    (mkUserBox cbL .left).edited = false ∧
    ((scnFrame 2 exBoxA).setDets .left [mkUserBox cbL .left]).dets .right = [] := by
  with_unfolding_all decide

/-- C7 as amended: for the modification path, once the interval is located,
every keyframe of the interval has, for each requested side whose existing
detection list is non-empty, that list replaced by exactly one box carrying
the supplied coordinates, that side, confidence 1.0, and no
interpolated/edited flag; a requested side whose list is empty is left
unchanged, unrequested sides and the boolean summaries and timestamps are
untouched, and keyframes outside the interval are unchanged. -/
theorem modify_replacement_spec (ts : ℚ) (boxes : Side → Option ClientBox)
    (sel : SideSel) (s e : Nat) (kfs : Keyframes)
    (hsel : selFromBoxes boxes = some sel)
    (hloc : locateInterval kfs ts sel = some (s, e)) :
    ∀ i k f, kfs.get? i = some (k, f) →
      ∃ f2, (modifyMutate ts boxes kfs).get? i = some (k, f2) ∧
        (k ∈ affectedKeys (sortKfs kfs) s e →
          (∀ S cb, boxes S = some cb →
            (f.dets S ≠ [] → f2.dets S = [mkUserBox cb S]) ∧
            (f.dets S = [] → f2.dets S = f.dets S)) ∧
          (∀ S, boxes S = none → f2.dets S = f.dets S) ∧
          (∀ S, f2.hasOct S = f.hasOct S) ∧ f2.timestamp = f.timestamp) ∧
        (k ∉ affectedKeys (sortKfs kfs) s e → f2 = f) ∧
        (∀ cb S, (mkUserBox cb S).confidence = 1 ∧
          (mkUserBox cb S).edited = false ∧ (mkUserBox cb S).interpolated = false ∧
          (mkUserBox cb S).side = S ∧ (mkUserBox cb S).x_min = cb.x_min ∧
          (mkUserBox cb S).y_min = cb.y_min ∧ (mkUserBox cb S).x_max = cb.x_max ∧
          (mkUserBox cb S).y_max = cb.y_max) := by
  intro i k f he
  unfold modifyMutate
  rw [hsel]
  dsimp only
  rw [hloc]
  unfold applyInterval
  dsimp only
  refine ⟨if k ∈ affectedKeys (sortKfs kfs) s e then modifyFrame boxes f else f,
    ?_, ?_, ?_, ?_⟩
  · rw [List.get?_map, he, Option.map_some']
    by_cases hk : k ∈ affectedKeys (sortKfs kfs) s e
    · rw [if_pos hk, if_pos hk]
    · rw [if_neg hk, if_neg hk]
  · intro hk
    rw [if_pos hk]
    refine ⟨?_, ?_, ?_, ?_⟩
    · intro S cb hb
      constructor
      · intro hne
        rw [modifyFrame_dets, hb]
        dsimp only
        rw [if_pos hne]
      · intro hemp
        rw [modifyFrame_dets, hb]
        dsimp only
        rw [if_neg (by simp [hemp])]
    · intro S hb
      rw [modifyFrame_dets, hb]
    · intro S
      exact modifyFrame_hasOct boxes f S
    · exact modifyFrame_timestamp boxes f
  · intro hk
    rw [if_neg hk]
  · intro cb S
    exact ⟨rfl, rfl, rfl, rfl, rfl, rfl, rfl, rfl⟩

/-- Witness for the amended C7 at the concrete both-sides modification. -/
theorem modify_replacement_spec_witness :
    ∃ f2, (modifyMutate 2 boxesBoth exKfs6).get? 1 = some (2, f2) ∧
      ((2 : Nat) ∈ affectedKeys (sortKfs exKfs6) 0 2 →
        (∀ S cb, boxesBoth S = some cb →
          ((scnFrame 2 exBoxA).dets S ≠ [] → f2.dets S = [mkUserBox cb S]) ∧
          ((scnFrame 2 exBoxA).dets S = [] →
            f2.dets S = (scnFrame 2 exBoxA).dets S)) ∧
        (∀ S, boxesBoth S = none → f2.dets S = (scnFrame 2 exBoxA).dets S) ∧
        (∀ S, f2.hasOct S = (scnFrame 2 exBoxA).hasOct S) ∧
        f2.timestamp = (scnFrame 2 exBoxA).timestamp) ∧
      ((2 : Nat) ∉ affectedKeys (sortKfs exKfs6) 0 2 → f2 = scnFrame 2 exBoxA) ∧
      (∀ cb S, (mkUserBox cb S).confidence = 1 ∧
        (mkUserBox cb S).edited = false ∧ (mkUserBox cb S).interpolated = false ∧
        (mkUserBox cb S).side = S ∧ (mkUserBox cb S).x_min = cb.x_min ∧
        (mkUserBox cb S).y_min = cb.y_min ∧ (mkUserBox cb S).x_max = cb.x_max ∧
        (mkUserBox cb S).y_max = cb.y_max) :=
  modify_replacement_spec 2 boxesBoth .both 0 2 exKfs6 rfl
    (by with_unfolding_all decide) 1 2 (scnFrame 2 exBoxA) rfl

/-! ### Restore theorems (C10) -/

theorem leadingMatch_append : ∀ (a b : List Char), leadingMatch a (a ++ b) = true := by
  intro a
  induction a with
  | nil => intro b; rfl
  | cons c t ih =>
    intro b
    rw [List.cons_append]
    unfold leadingMatch
    simp [ih b]

theorem backupFileName_belongs (code stamp : String) :
    backupBelongsTo code (backupFileName code stamp) = true := by
  unfold backupBelongsTo backupFileName
  have h1 : "MVI_" ++ code ++ "_keyframes.backup_" ++ stamp ++ ".json" =
      ("MVI_" ++ code ++ "_keyframes.backup_") ++ (stamp ++ ".json") := by
    simp [String.append_assoc]
  rw [h1]
  rw [String.data_append]
  exact leadingMatch_append _ _

/-- C10: the restore operation, for every code and backup name, rejects a
backup filename that does not belong to the given code as `InvalidInput`,
fails with `NotFound` if the named backup is absent, and on success first
snapshots the current document into a fresh backup — named so that it
belongs to the same code, making the restore itself reversible — before
overwriting the current document with the backup contents. -/
theorem restore_spec :
    (∀ code name stamp st st2, restoreBackup code name stamp st = .ok st2 →
      backupBelongsTo code name = true ∧
      (backupFileName code stamp, st.current) ∈ st2.backups ∧
      backupBelongsTo code (backupFileName code stamp) = true ∧
      ∃ hit, st.backups.find? (fun x => x.1 == name) = some hit ∧
        st2.current = hit.2) ∧
    (∀ code name stamp st, backupBelongsTo code name = false →
      restoreBackup code name stamp st = .error .invalidInput) ∧
    (∀ code name stamp st, backupBelongsTo code name = true →
      st.backups.find? (fun x => x.1 == name) = none →
      restoreBackup code name stamp st = .error .notFound) := by
  refine ⟨?_, ?_, ?_⟩
  · intro code name stamp st st2 h
    unfold restoreBackup at h
    by_cases hb : backupBelongsTo code name
    · rw [if_pos hb] at h
      cases hfind : st.backups.find? (fun x => x.1 == name) with
      | none => rw [hfind] at h; cases h
      | some hit =>
        rw [hfind] at h
        dsimp only at h
        injection h with h2
        refine ⟨hb, ?_, backupFileName_belongs code stamp, ⟨hit, rfl, ?_⟩⟩
        · rw [← h2]
          exact List.mem_cons_self _ _
        · rw [← h2]
    · rw [if_neg hb] at h; cases h
  · intro code name stamp st hb
    unfold restoreBackup
    rw [if_neg (by simp [hb])]
  · intro code name stamp st hb hfind
    unfold restoreBackup
    rw [if_pos hb, hfind]

/-- C10 witness: the pre-restore file state. -/
def exStore : BackupStore :=
  { current := exKfs1, backups := [(backupFileName "0042" "A", [])] }

/-- C10 witness: the post-restore file state: the old current snapshotted
under a fresh backup name, the named backup's contents now current. -/
def exStoreAfter : BackupStore :=
  { current := []
    backups := [(backupFileName "0042" "B", exKfs1), (backupFileName "0042" "A", [])] }

/-- Witness for C10 at a concrete restore. -/
theorem restore_spec_witness :
    backupBelongsTo "0042" (backupFileName "0042" "A") = true ∧
    (backupFileName "0042" "B", exStore.current) ∈ exStoreAfter.backups ∧
    backupBelongsTo "0042" (backupFileName "0042" "B") = true ∧
    ∃ hit, exStore.backups.find?
        (fun x => x.1 == backupFileName "0042" "A") = some hit ∧
      exStoreAfter.current = hit.2 :=
  restore_spec.1 "0042" (backupFileName "0042" "A") "B" exStore exStoreAfter
    (by with_unfolding_all decide)

end OctoWatch
